import Mathlib

/-!
Longest harmonious subsequence (`FindLHS.c`)

A shallow embedding of `compare` and `findLHS` from `src/FindLHS.c`.

* A C `int` is an integer; `int` subtraction is `isub`, which wraps modulo `2^32`
  into the signed range.
* The caller's array is a `List Int`; a read `nums[i]` outside the array is a failure
  (`none`).
* `qsort` is a C library routine, so `findLHS` takes it as a parameter.  What the
  development assumes of it is `QsortContract`; `qsortRef` (an insertion sort driven by
  the comparator) is one executable routine that meets the contract.
* `findLHS` returns the returned `int` together with the final contents of the caller's
  array, since the function sorts in place.
-/

namespace FindLHS

/-! Machine integers -/

/-- Smallest value of a 32-bit `int`. -/
def INT_MIN : Int := -2147483648

/-- Largest value of a 32-bit `int`. -/
def INT_MAX : Int := 2147483647

/-- Reduction of an integer modulo `2^32` into the signed range `[-2^31, 2^31)`. -/
def wrap32 (x : Int) : Int := (x + 2147483648) % 4294967296 - 2147483648

/-- C `int` subtraction `a - b`, wrapping modulo `2^32`. -/
def isub (a b : Int) : Int := wrap32 (a - b)

/-- Source lines 14-16: `return (*(int*)a - *(int*)b);`. -/
def compare (a b : Int) : Int := isub a b

/-! The scan of `findLHS` (source lines 38-59) -/

/-- Source lines 45-47: `while (nums[right] - nums[left] > 1) left++;`, started with the
given value of `left`; the result is the value of `left` when the loop exits. Reading
outside the array fails. -/
def whileLoop (nums : List Int) (right left : Nat) : Option Nat :=
  if h : left < nums.length then
    match nums[right]? with
    | none => none
    | some r =>
      if isub r nums[left] > 1 then whileLoop nums right (left + 1) else some left
  else none
termination_by nums.length - left

/-- Source lines 43-56: one pass through the body of the `for` loop, from the values of
`left` and `maxLength` before the pass to their values after it. -/
def loopBody (nums : List Int) (right left : Nat) (maxLength : Int) : Option (Nat × Int) :=
  match whileLoop nums right left with
  | none => none
  | some left1 =>
    match nums[right]?, nums[left1]? with
    | some r, some l =>
      if isub r l = 1 then
        let currentLength : Int := (right : Int) - (left1 : Int) + 1
        if currentLength > maxLength then some (left1, currentLength)
        else some (left1, maxLength)
      else some (left1, maxLength)
    | _, _ => none

/-- Source lines 42-59: `for (int right = 0; right < numsSize; right++) { ... }` followed
by `return maxLength;`, started at the given `right`, `left` and `maxLength`. -/
def forLoop (nums : List Int) (numsSize : Nat) (right left : Nat) (maxLength : Int) :
    Option Int :=
  if right < numsSize then
    match loopBody nums right left maxLength with
    | none => none
    | some (left1, maxLength1) => forLoop nums numsSize (right + 1) left1 maxLength1
  else some maxLength
termination_by numsSize - right

/-- Source lines 28-60. `qsort` sorts the first `numsSize` elements in place with
`compare`; a call with `numsSize` larger than the array fails. The result is the returned
value and the array as the caller finds it afterwards. -/
def findLHS (qsort : (Int → Int → Int) → List Int → List Int) (nums : List Int)
    (numsSize : Int) : Option (Int × List Int) :=
  if numsSize ≤ 1 then some (0, nums)
  else if (nums.length : Int) < numsSize then none
  else
    let sorted := qsort compare (nums.take numsSize.toNat) ++ nums.drop numsSize.toNat
    match forLoop sorted numsSize.toNat 0 0 0 with
    | none => none
    | some maxLength => some (maxLength, sorted)

/-! The library routine `qsort` -/

/-- The comparator results on the elements of `l` are consistent with one another:
they define a total ordering of the array (C standard, 7.22.5). -/
def Consistent (cmp : Int → Int → Int) (l : List Int) : Prop :=
  (∀ a ∈ l, cmp a a = 0) ∧
  (∀ a ∈ l, ∀ b ∈ l, (cmp a b < 0 ↔ 0 < cmp b a)) ∧
  (∀ a ∈ l, ∀ b ∈ l, ∀ c ∈ l, cmp a b ≤ 0 → cmp b c ≤ 0 → cmp a c ≤ 0)

/-- What is assumed of the library `qsort`: the array keeps its length whatever the
comparator does, and under a consistent comparator the result is a rearrangement of the
input in ascending order according to the comparator. -/
structure QsortContract (qsort : (Int → Int → Int) → List Int → List Int) : Prop where
  length_eq : ∀ cmp l, (qsort cmp l).length = l.length
  perm : ∀ cmp l, Consistent cmp l → (qsort cmp l).Perm l
  ordered : ∀ cmp l, Consistent cmp l → (qsort cmp l).Pairwise (fun a b => cmp a b ≤ 0)

/-- Insertion of `x` into a list, before the first element it does not exceed according
to `cmp`. -/
def insertBy (cmp : Int → Int → Int) (x : Int) : List Int → List Int
  | [] => [x]
  | y :: ys => if cmp x y ≤ 0 then x :: y :: ys else y :: insertBy cmp x ys

/-- An executable sorting routine meeting `QsortContract`: insertion sort driven by the
comparator. -/
def qsortRef (cmp : Int → Int → Int) (l : List Int) : List Int :=
  l.foldr (insertBy cmp) []

/-! Specification-side notions -/

/-- No subtraction of two elements of `l` overflows a 32-bit `int`. -/
def NoOverflow (l : List Int) : Prop :=
  ∀ a ∈ l, ∀ b ∈ l, INT_MIN ≤ a - b ∧ a - b ≤ INT_MAX

instance (l : List Int) : Decidable (NoOverflow l) := by
  unfold NoOverflow; infer_instance

/-- The maximum, over the values `v` of `l` with `v + 1` also in `l`, of the number of
occurrences of `v` plus the number of occurrences of `v + 1`; `0` when there is no such
value. -/
def maxPairCount (l : List Int) : Int :=
  ((l.filter (fun v => decide (v + 1 ∈ l))).map
    (fun v => ((l.count v + l.count (v + 1) : Nat) : Int))).foldr max 0

/-- Number of elements of `s` smaller than `x`; in an ascending array this is the first
index holding a value `≥ x`. -/
def below (x : Int) (s : List Int) : Nat := s.countP (fun a => decide (a < x))

/-! The same code over unbounded integers -/

/-- The comparator of source lines 14-16 with the subtraction taken in the unbounded
integers. -/
def compareInt (a b : Int) : Int := a - b

/-- The loop `whileLoop` with the subtraction taken in the unbounded integers. -/
def whileLoopInt (nums : List Int) (right left : Nat) : Option Nat :=
  if h : left < nums.length then
    match nums[right]? with
    | none => none
    | some r =>
      if r - nums[left] > 1 then whileLoopInt nums right (left + 1) else some left
  else none
termination_by nums.length - left

/-- The pass `loopBody` with the subtraction taken in the unbounded integers. -/
def loopBodyInt (nums : List Int) (right left : Nat) (maxLength : Int) :
    Option (Nat × Int) :=
  match whileLoopInt nums right left with
  | none => none
  | some left1 =>
    match nums[right]?, nums[left1]? with
    | some r, some l =>
      if r - l = 1 then
        let currentLength : Int := (right : Int) - (left1 : Int) + 1
        if currentLength > maxLength then some (left1, currentLength)
        else some (left1, maxLength)
      else some (left1, maxLength)
    | _, _ => none

/-- The loop `forLoop` with the subtraction taken in the unbounded integers. -/
def forLoopInt (nums : List Int) (numsSize : Nat) (right left : Nat) (maxLength : Int) :
    Option Int :=
  if right < numsSize then
    match loopBodyInt nums right left maxLength with
    | none => none
    | some (left1, maxLength1) => forLoopInt nums numsSize (right + 1) left1 maxLength1
  else some maxLength
termination_by numsSize - right

/-- The function `findLHS` with every subtraction, in the comparator and in the scan,
taken in the unbounded integers. -/
def findLHSInt (qsort : (Int → Int → Int) → List Int → List Int) (nums : List Int)
    (numsSize : Int) : Option (Int × List Int) :=
  if numsSize ≤ 1 then some (0, nums)
  else if (nums.length : Int) < numsSize then none
  else
    let sorted := qsort compareInt (nums.take numsSize.toNat) ++ nums.drop numsSize.toNat
    match forLoopInt sorted numsSize.toNat 0 0 0 with
    | none => none
    | some maxLength => some (maxLength, sorted)

/-! The run of the scan, step by step -/

/-- Values of `left` and `maxLength` at the start of pass `right` of the `for` loop, in the
run started with `left = 0` and `maxLength = 0` (source lines 38-42). -/
def stateAt (nums : List Int) : Nat → Option (Nat × Int)
  | 0 => some (0, 0)
  | right + 1 =>
    match stateAt nums right with
    | none => none
    | some (left, maxLength) => loopBody nums right left maxLength

/-- Index pairs `(right, left)` at which the condition of the `while` loop (source line
45) evaluates `nums[right] - nums[left]`, in order; each pair is recorded before the
elements are read. -/
def whileReads (nums : List Int) (right left : Nat) : List (Nat × Nat) :=
  (right, left) ::
    (if h : left < nums.length then
      match nums[right]? with
      | none => []
      | some r =>
        if isub r nums[left] > 1 then whileReads nums right (left + 1) else []
    else [])
termination_by nums.length - left

/-- Index pairs `(right, left)` at which the scan evaluates `nums[right] - nums[left]`
(source lines 45 and 51), in order, from pass `right` on. -/
def forReads (nums : List Int) (numsSize : Nat) (right left : Nat) (maxLength : Int) :
    List (Nat × Nat) :=
  if right < numsSize then
    whileReads nums right left ++
      (match whileLoop nums right left with
      | none => []
      | some left1 =>
        (right, left1) ::
          (match loopBody nums right left maxLength with
          | none => []
          | some (left2, maxLength1) => forReads nums numsSize (right + 1) left2 maxLength1))
  else []
termination_by numsSize - right

/-- Index pairs `(right, left)` at which a call of `findLHS` evaluates
`nums[right] - nums[left]`, in order. -/
def findLHSReads (qsort : (Int → Int → Int) → List Int → List Int) (nums : List Int)
    (numsSize : Int) : List (Nat × Nat) :=
  if numsSize ≤ 1 then []
  else if (nums.length : Int) < numsSize then []
  else
    forReads (qsort compare (nums.take numsSize.toNat) ++ nums.drop numsSize.toNat)
      numsSize.toNat 0 0 0

/-! Exhaustive search over windows -/

/-- The maximum of `j - i + 1` over all index pairs `i ≤ j < s.length` with
`s[j] - s[i] = 1`; `0` when there is no such pair. -/
def windowSearch (s : List Int) : Int :=
  ((List.range s.length).flatMap (fun (j : Nat) =>
    ((List.range (j + 1)).filter (fun i => decide (s.getD j 0 - s.getD i 0 = 1))).map
      (fun (i : Nat) => (j : Int) - (i : Int) + 1))).foldr max 0

/-! Arithmetic of wrapped subtraction -/

theorem wrap32_eq_self {x : Int} (h1 : INT_MIN ≤ x) (h2 : x ≤ INT_MAX) : wrap32 x = x := by
  unfold INT_MIN at h1
  unfold INT_MAX at h2
  unfold wrap32
  omega

theorem isub_self (a : Int) : isub a a = 0 := by
  simp [isub, wrap32]

theorem isub_eq_sub {l : List Int} (h : NoOverflow l) {a b : Int} (ha : a ∈ l) (hb : b ∈ l) :
    isub a b = a - b :=
  wrap32_eq_self (h a ha b hb).1 (h a ha b hb).2

/-! The scan on an arbitrary array: it returns, and its indices stay ordered -/

theorem whileLoop_total (nums : List Int) (right : Nat) (hr : right < nums.length) :
    ∀ (k left : Nat), right - left = k → left ≤ right →
      ∃ left1, whileLoop nums right left = some left1 ∧ left ≤ left1 ∧ left1 ≤ right := by
  intro k
  induction k with
  | zero =>
    intro left hk hle
    have hlr : left = right := by omega
    subst hlr
    refine ⟨left, ?_, le_refl _, le_refl _⟩
    rw [whileLoop]
    simp [hr, isub_self]
  | succ k ih =>
    intro left hk hle
    have hl : left < nums.length := by omega
    rw [whileLoop]
    simp only [hl, dite_true, List.getElem?_eq_getElem hr]
    by_cases hc : isub nums[right] nums[left] > 1
    · simp only [hc, if_true]
      obtain ⟨left1, h1, h2, h3⟩ := ih (left + 1) (by omega) (by omega)
      exact ⟨left1, h1, by omega, h3⟩
    · simp only [hc, if_false]
      exact ⟨left, rfl, le_refl _, hle⟩

theorem loopBody_total (nums : List Int) (right left : Nat) (maxLength : Int)
    (hr : right < nums.length) (hle : left ≤ right) :
    ∃ left1 m1, loopBody nums right left maxLength = some (left1, m1) ∧
      left ≤ left1 ∧ left1 ≤ right ∧ maxLength ≤ m1 ∧
      (m1 = maxLength ∨ (m1 = (right : Int) - (left1 : Int) + 1 ∧ left1 < right)) := by
  obtain ⟨left1, h1, h2, h3⟩ := whileLoop_total nums right hr (right - left) left rfl hle
  have hl1 : left1 < nums.length := by omega
  unfold loopBody
  simp only [h1, List.getElem?_eq_getElem hr, List.getElem?_eq_getElem hl1]
  by_cases hc : isub nums[right] nums[left1] = 1
  · simp only [hc, if_true]
    have hne : left1 ≠ right := by
      intro he
      subst he
      rw [isub_self] at hc
      omega
    by_cases hm : (right : Int) - (left1 : Int) + 1 > maxLength
    · simp only [hm, if_true]
      exact ⟨left1, _, rfl, h2, h3, by omega, Or.inr ⟨rfl, by omega⟩⟩
    · simp only [hm, if_false]
      exact ⟨left1, _, rfl, h2, h3, le_refl _, Or.inl rfl⟩
  · simp only [hc, if_false]
    exact ⟨left1, _, rfl, h2, h3, le_refl _, Or.inl rfl⟩

theorem forLoop_total (nums : List Int) (numsSize : Nat) (hn : numsSize ≤ nums.length) :
    ∀ (k right left : Nat) (maxLength : Int), numsSize - right = k →
      (right < numsSize → left ≤ right) → 0 ≤ maxLength → maxLength ≤ right →
      maxLength ≠ 1 →
      ∃ r, forLoop nums numsSize right left maxLength = some r ∧ maxLength ≤ r ∧
        r ≤ max (right : Int) (numsSize : Int) ∧ r ≠ 1 := by
  intro k
  induction k with
  | zero =>
    intro right left maxLength hk _ _ hm h1
    rw [forLoop]
    have : ¬ right < numsSize := by omega
    simp only [this, if_false]
    exact ⟨maxLength, rfl, le_refl _, by omega, h1⟩
  | succ k ih =>
    intro right left maxLength hk hle h0 hm h1
    have hlt : right < numsSize := by omega
    obtain ⟨left1, m1, hb, _, hb2, hb3, hb4⟩ :=
      loopBody_total nums right left maxLength (by omega) (hle hlt)
    rw [forLoop]
    simp only [hlt, if_true, hb]
    obtain ⟨r, hr1, hr2, hr3, hr4⟩ := ih (right + 1) left1 m1 (by omega) (fun _ => by omega)
      (by omega) (by push_cast; omega) (by omega)
    refine ⟨r, hr1, by omega, ?_, hr4⟩
    push_cast at hr3
    omega

/-! Ascending arrays: positions and counts -/

theorem below_le_length (x : Int) (s : List Int) : below x s ≤ s.length :=
  List.countP_le_length _

theorem below_cons (x a : Int) (s : List Int) :
    below x (a :: s) = below x s + (if a < x then 1 else 0) := by
  simp [below, List.countP_cons]

theorem below_mono {x y : Int} (h : x ≤ y) (s : List Int) : below x s ≤ below y s := by
  induction s with
  | nil => simp [below]
  | cons a s ih =>
    rw [below_cons, below_cons]
    split_ifs <;> omega

theorem below_succ (v : Int) (s : List Int) : below (v + 1) s = below v s + s.count v := by
  induction s with
  | nil => simp [below]
  | cons a s ih =>
    rw [below_cons, below_cons, List.count_cons, ih]
    by_cases h1 : a < v
    · have h2 : a < v + 1 := by omega
      have h3 : ¬ a = v := by omega
      simp [h1, h2, h3]
      omega
    · by_cases h3 : a = v
      · subst h3
        simp
        omega
      · have h2 : ¬ a < v + 1 := by omega
        simp [h1, h2, h3]

theorem below_eq_zero {x : Int} {s : List Int} (h : ∀ b ∈ s, x ≤ b) : below x s = 0 := by
  unfold below
  rw [List.countP_eq_zero]
  intro b hb
  have := h b hb
  simp
  omega

theorem getElem_lt_iff {s : List Int} (hs : s.Sorted (· ≤ ·)) (x : Int) :
    ∀ (i : Nat) (hi : i < s.length), s[i] < x ↔ i < below x s := by
  induction s with
  | nil => intro i hi; simp at hi
  | cons a s ih =>
    intro i hi
    rw [List.sorted_cons] at hs
    rw [below_cons]
    by_cases ha : a < x
    · simp only [ha, if_true]
      cases i with
      | zero => simp [ha]
      | succ i =>
        simp only [List.getElem_cons_succ]
        rw [ih hs.2 i (by simpa using hi)]
        omega
    · simp only [ha, if_false]
      have hz : below x s = 0 := below_eq_zero (fun b hb => by have := hs.1 b hb; omega)
      rw [hz]
      cases i with
      | zero => simp [ha]
      | succ i =>
        simp only [List.getElem_cons_succ]
        have hi2 : i < s.length := by simpa using hi
        have hmem : s[i] ∈ s := List.getElem_mem hi2
        have := hs.1 _ hmem
        omega

theorem count_pos_of_mem {v : Int} {s : List Int} (h : v ∈ s) : 0 < s.count v :=
  List.count_pos_iff.mpr h

theorem below_add_two (v : Int) (s : List Int) :
    below (v + 2) s = below v s + (s.count v + s.count (v + 1)) := by
  have h : v + 2 = v + 1 + 1 := by ring
  rw [h, below_succ, below_succ]
  omega

theorem getElem_eq_of_below {s : List Int} (hs : s.Sorted (· ≤ ·)) {v : Int}
    {i : Nat} (hi : i < s.length) (h1 : below v s ≤ i) (h2 : i < below (v + 1) s) :
    s[i] = v := by
  have ha : ¬ s[i] < v := by
    rw [getElem_lt_iff hs v i hi]
    omega
  have hb : s[i] < v + 1 := (getElem_lt_iff hs (v + 1) i hi).mpr h2
  omega

/-! The scan on an ascending array without overflow -/

theorem whileLoop_sorted {s : List Int} (hs : s.Sorted (· ≤ ·)) (hno : NoOverflow s)
    (right : Nat) (hr : right < s.length) :
    ∀ (k left : Nat), below (s[right] - 1) s - left = k → left ≤ below (s[right] - 1) s →
      whileLoop s right left = some (below (s[right] - 1) s) := by
  have hLr : below (s[right] - 1) s ≤ right := by
    have h := getElem_lt_iff hs (s[right] - 1) right hr
    by_contra hc
    have : s[right] < s[right] - 1 := h.mpr (by omega)
    omega
  intro k
  induction k with
  | zero =>
    intro left hk hle
    have hl : left = below (s[right] - 1) s := by omega
    have hlt : left < s.length := by omega
    have hge : ¬ s[left] < s[right] - 1 := by
      rw [getElem_lt_iff hs _ left hlt]
      omega
    rw [whileLoop]
    simp only [hlt, dite_true, List.getElem?_eq_getElem hr]
    rw [isub_eq_sub hno (List.getElem_mem hr) (List.getElem_mem hlt)]
    have hc : ¬ s[right] - s[left] > 1 := by omega
    simp only [hc, if_false]
    rw [hl]
  | succ k ih =>
    intro left hk hle
    have hlt : left < s.length := by omega
    have hlow : s[left] < s[right] - 1 := by
      rw [getElem_lt_iff hs _ left hlt]
      omega
    rw [whileLoop]
    simp only [hlt, dite_true, List.getElem?_eq_getElem hr]
    rw [isub_eq_sub hno (List.getElem_mem hr) (List.getElem_mem hlt)]
    have hc : s[right] - s[left] > 1 := by omega
    simp only [hc, if_true]
    exact ih (left + 1) (by omega) (by omega)

theorem loopBody_sorted {s : List Int} (hs : s.Sorted (· ≤ ·)) (hno : NoOverflow s)
    (right left : Nat) (maxLength : Int) (hr : right < s.length)
    (hle : left ≤ below (s[right] - 1) s) :
    ∃ m1, loopBody s right left maxLength = some (below (s[right] - 1) s, m1) ∧
      maxLength ≤ m1 ∧
      (∀ v, s[right] = v + 1 → v ∈ s → (right : Int) - (below v s : Int) + 1 ≤ m1) ∧
      (m1 = maxLength ∨
        ∃ v, v ∈ s ∧ v + 1 ∈ s ∧ m1 ≤ ((s.count v + s.count (v + 1) : Nat) : Int)) := by
  have hw := whileLoop_sorted hs hno right hr _ left rfl hle
  have hLr : below (s[right] - 1) s ≤ right := by
    have h := getElem_lt_iff hs (s[right] - 1) right hr
    by_contra hc
    have : s[right] < s[right] - 1 := h.mpr (by omega)
    omega
  have hL : below (s[right] - 1) s < s.length := by omega
  unfold loopBody
  simp only [hw, List.getElem?_eq_getElem hr, List.getElem?_eq_getElem hL]
  rw [isub_eq_sub hno (List.getElem_mem hr) (List.getElem_mem hL)]
  by_cases hc : s[right] - s[below (s[right] - 1) s] = 1
  · simp only [hc, if_true]
    have hcnt : (right : Int) - (below (s[right] - 1) s : Int) + 1 ≤
        ((s.count (s[right] - 1) + s.count (s[right] - 1 + 1) : Nat) : Int) := by
      have h2 := below_add_two (s[right] - 1) s
      have h3 : right < below (s[right] - 1 + 2) s :=
        (getElem_lt_iff hs _ right hr).mp (by omega)
      omega
    have hmemL : s[right] - 1 ∈ s := by
      have : s[below (s[right] - 1) s] = s[right] - 1 := by omega
      rw [← this]
      exact List.getElem_mem hL
    have hmemR : s[right] - 1 + 1 ∈ s := by
      have : s[right] - 1 + 1 = s[right] := by ring
      rw [this]
      exact List.getElem_mem hr
    by_cases hm : (right : Int) - (below (s[right] - 1) s : Int) + 1 > maxLength
    · simp only [hm, if_true]
      refine ⟨_, rfl, by omega, ?_, Or.inr ⟨_, hmemL, hmemR, hcnt⟩⟩
      intro v hv _
      have : s[right] - 1 = v := by omega
      rw [this]
    · simp only [hm, if_false]
      refine ⟨_, rfl, le_refl _, ?_, Or.inl rfl⟩
      intro v hv _
      have : s[right] - 1 = v := by omega
      rw [this] at hm
      omega
  · simp only [hc, if_false]
    refine ⟨_, rfl, le_refl _, ?_, Or.inl rfl⟩
    intro v hv hvm
    exfalso
    apply hc
    have he : s[right] - 1 = v := by omega
    have h1 : below v s < below (v + 1) s := by
      have := below_succ v s
      have := count_pos_of_mem hvm
      omega
    have := getElem_eq_of_below hs hL (by rw [he]) (by rw [he]; exact h1)
    omega

theorem getElem_succ_ge {s : List Int} (hs : s.Sorted (· ≤ ·)) (i : Nat)
    (hi : i + 1 < s.length) : s[i] ≤ s[i + 1] := by
  by_contra hc
  have h1 : i + 1 < below s[i] s := (getElem_lt_iff hs s[i] (i + 1) hi).mp (by omega)
  have h2 : s[i] < s[i] := (getElem_lt_iff hs s[i] i (by omega)).mpr (by omega)
  omega

theorem forLoop_sorted {s : List Int} (hs : s.Sorted (· ≤ ·)) (hno : NoOverflow s) :
    ∀ (k right left : Nat) (maxLength : Int), s.length - right = k →
      (∀ hr : right < s.length, left ≤ below (s[right] - 1) s) →
      ∃ r, forLoop s s.length right left maxLength = some r ∧ maxLength ≤ r ∧
        (r = maxLength ∨
          ∃ v, v ∈ s ∧ v + 1 ∈ s ∧ r ≤ ((s.count v + s.count (v + 1) : Nat) : Int)) ∧
        (∀ v, v ∈ s → v + 1 ∈ s → right < below (v + 2) s →
          ((s.count v + s.count (v + 1) : Nat) : Int) ≤ r) := by
  intro k
  induction k with
  | zero =>
    intro right left maxLength hk _
    rw [forLoop]
    have hge : ¬ right < s.length := by omega
    simp only [hge, if_false]
    refine ⟨maxLength, rfl, le_refl _, Or.inl rfl, ?_⟩
    intro v _ _ hlt
    have := below_le_length (v + 2) s
    omega
  | succ k ih =>
    intro right left maxLength hk hle
    have hr : right < s.length := by omega
    have hk1 : s.length - (right + 1) = k := by omega
    obtain ⟨m1, hb, hb1, hb2, hb3⟩ := loopBody_sorted hs hno right left maxLength hr (hle hr)
    rw [forLoop]
    simp only [hr, if_true, hb]
    obtain ⟨r, hr1, hr2, hr3, hr4⟩ := ih (right + 1) (below (s[right] - 1) s) m1 hk1
      (fun h => below_mono (by have := getElem_succ_ge hs right h; omega) s)
    refine ⟨r, hr1, by omega, ?_, ?_⟩
    · rcases hr3 with h | h
      · rcases hb3 with h2 | ⟨v, hv1, hv2, hv3⟩
        · exact Or.inl (by omega)
        · exact Or.inr ⟨v, hv1, hv2, by omega⟩
      · exact Or.inr h
    · intro v hv1 hv2 hlt
      by_cases hlast : right + 1 < below (v + 2) s
      · exact hr4 v hv1 hv2 hlast
      · have h2 := below_add_two v s
        have h3 := below_succ v s
        have h4 := count_pos_of_mem hv1
        have h5 := count_pos_of_mem hv2
        have he : s[right] = v + 1 := by
          have hx := getElem_eq_of_below hs (v := v + 1) hr
            (by omega) (by have : v + 1 + 1 = v + 2 := by ring
                           rw [this]; exact hlt)
          exact hx
        have := hb2 v he hv1
        omega

/-! The sorting step -/

theorem length_insertBy (cmp : Int → Int → Int) (x : Int) (l : List Int) :
    (insertBy cmp x l).length = l.length + 1 := by
  induction l with
  | nil => rfl
  | cons y ys ih =>
    unfold insertBy
    split_ifs
    · rfl
    · simp [ih]

theorem perm_insertBy (cmp : Int → Int → Int) (x : Int) (l : List Int) :
    (insertBy cmp x l).Perm (x :: l) := by
  induction l with
  | nil => exact List.Perm.refl _
  | cons y ys ih =>
    unfold insertBy
    split_ifs
    · exact List.Perm.refl _
    · exact (List.Perm.cons y ih).trans (List.Perm.swap x y ys)

theorem perm_qsortRef (cmp : Int → Int → Int) (l : List Int) : (qsortRef cmp l).Perm l := by
  induction l with
  | nil => exact List.Perm.refl _
  | cons x xs ih =>
    exact (perm_insertBy cmp x (qsortRef cmp xs)).trans (List.Perm.cons x ih)

theorem pairwise_insertBy {cmp : Int → Int → Int} {u : List Int} (hc : Consistent cmp u)
    {x : Int} (hx : x ∈ u) :
    ∀ (ys : List Int), (∀ y ∈ ys, y ∈ u) → ys.Pairwise (fun a b => cmp a b ≤ 0) →
      (insertBy cmp x ys).Pairwise (fun a b => cmp a b ≤ 0) := by
  intro ys
  induction ys with
  | nil => intro _ _; simp [insertBy]
  | cons y ys ih =>
    intro hmem hp
    have hy : y ∈ u := hmem y (List.mem_cons_self _ _)
    have hys : ∀ z ∈ ys, z ∈ u := fun z hz => hmem z (List.mem_cons_of_mem _ hz)
    rw [List.pairwise_cons] at hp
    unfold insertBy
    by_cases hxy : cmp x y ≤ 0
    · simp only [hxy, if_true]
      rw [List.pairwise_cons]
      refine ⟨?_, List.pairwise_cons.mpr hp⟩
      intro z hz
      rcases List.mem_cons.mp hz with h | h
      · rw [h]; exact hxy
      · exact hc.2.2 x hx y hy z (hys z h) hxy (hp.1 z h)
    · simp only [hxy, if_false]
      rw [List.pairwise_cons]
      refine ⟨?_, ih hys hp.2⟩
      intro z hz
      have hz2 : z ∈ x :: ys := (perm_insertBy cmp x ys).mem_iff.mp hz
      rcases List.mem_cons.mp hz2 with h | h
      · rw [h]
        have := (hc.2.1 y hy x hx).mpr (by omega)
        omega
      · exact hp.1 z h

theorem consistent_of_cons {cmp : Int → Int → Int} {x : Int} {l : List Int}
    (h : Consistent cmp (x :: l)) : Consistent cmp l :=
  ⟨fun a ha => h.1 a (List.mem_cons_of_mem _ ha),
   fun a ha b hb => h.2.1 a (List.mem_cons_of_mem _ ha) b (List.mem_cons_of_mem _ hb),
   fun a ha b hb c hc => h.2.2 a (List.mem_cons_of_mem _ ha) b (List.mem_cons_of_mem _ hb)
     c (List.mem_cons_of_mem _ hc)⟩

theorem pairwise_qsortRef {cmp : Int → Int → Int} {u : List Int} (hc : Consistent cmp u) :
    ∀ (l : List Int), (∀ y ∈ l, y ∈ u) → (qsortRef cmp l).Pairwise (fun a b => cmp a b ≤ 0) := by
  intro l
  induction l with
  | nil => intro _; simp [qsortRef]
  | cons x xs ih =>
    intro hmem
    have hxs : ∀ y ∈ xs, y ∈ u := fun y hy => hmem y (List.mem_cons_of_mem _ hy)
    exact pairwise_insertBy hc (hmem x (List.mem_cons_self _ _)) (qsortRef cmp xs)
      (fun y hy => hxs y ((perm_qsortRef cmp xs).mem_iff.mp hy)) (ih hxs)

/-- The insertion sort `qsortRef` meets the contract assumed of `qsort`. -/
theorem qsortRef_contract : QsortContract qsortRef where
  length_eq := fun cmp l => (perm_qsortRef cmp l).length_eq
  perm := fun cmp l _ => perm_qsortRef cmp l
  ordered := fun _ l hc => pairwise_qsortRef hc l (fun _ hy => hy)

theorem compare_eq_sub {l : List Int} (h : NoOverflow l) {a b : Int} (ha : a ∈ l)
    (hb : b ∈ l) : compare a b = a - b :=
  isub_eq_sub h ha hb

theorem consistent_compare {l : List Int} (h : NoOverflow l) : Consistent compare l := by
  refine ⟨fun a _ => isub_self a, ?_, ?_⟩
  · intro a ha b hb
    rw [compare_eq_sub h ha hb, compare_eq_sub h hb ha]
    omega
  · intro a ha b hb c hc
    rw [compare_eq_sub h ha hb, compare_eq_sub h hb hc, compare_eq_sub h ha hc]
    omega

theorem noOverflow_of_perm {l1 l2 : List Int} (hp : l1.Perm l2) (h : NoOverflow l2) :
    NoOverflow l1 :=
  fun a ha b hb => h a (hp.mem_iff.mp ha) b (hp.mem_iff.mp hb)

theorem qsort_sorted {qsort : (Int → Int → Int) → List Int → List Int}
    (hq : QsortContract qsort) {l : List Int} (h : NoOverflow l) :
    (qsort compare l).Sorted (· ≤ ·) := by
  have hc := consistent_compare h
  have hp := hq.perm compare l hc
  refine (hq.ordered compare l hc).imp_of_mem ?_
  intro a b ha hb hab
  rw [compare_eq_sub h (hp.mem_iff.mp ha) (hp.mem_iff.mp hb)] at hab
  omega

/-! `findLHS` on a whole array -/

theorem findLHS_short (qsort : (Int → Int → Int) → List Int → List Int) (nums : List Int)
    (numsSize : Int) (h : numsSize ≤ 1) : findLHS qsort nums numsSize = some (0, nums) := by
  unfold findLHS
  simp [h]

theorem findLHS_whole (qsort : (Int → Int → Int) → List Int → List Int) (nums : List Int)
    (h : 2 ≤ nums.length) :
    findLHS qsort nums nums.length =
      match forLoop (qsort compare nums) nums.length 0 0 0 with
      | none => none
      | some maxLength => some (maxLength, qsort compare nums) := by
  unfold findLHS
  have h1 : ¬ (nums.length : Int) ≤ 1 := by omega
  simp [h1]

/-! The specification function `maxPairCount` -/

theorem foldr_max_nonneg (xs : List Int) : 0 ≤ xs.foldr max 0 := by
  induction xs with
  | nil => simp
  | cons x xs ih => simp only [List.foldr_cons]; exact le_max_of_le_right ih

theorem le_foldr_max (xs : List Int) : ∀ x ∈ xs, x ≤ xs.foldr max 0 := by
  induction xs with
  | nil => intro x hx; simp at hx
  | cons y ys ih =>
    intro x hx
    simp only [List.foldr_cons]
    rcases List.mem_cons.mp hx with h | h
    · rw [h]; exact le_max_left _ _
    · exact le_max_of_le_right (ih x h)

theorem foldr_max_mem (xs : List Int) : xs.foldr max 0 = 0 ∨ xs.foldr max 0 ∈ xs := by
  induction xs with
  | nil => simp
  | cons y ys ih =>
    simp only [List.foldr_cons]
    rcases max_choice y (ys.foldr max 0) with h | h
    · rw [h]; exact Or.inr (List.mem_cons_self _ _)
    · rw [h]
      rcases ih with h2 | h2
      · exact Or.inl h2
      · exact Or.inr (List.mem_cons_of_mem _ h2)

theorem le_maxPairCount {l : List Int} {v : Int} (h1 : v ∈ l) (h2 : v + 1 ∈ l) :
    ((l.count v + l.count (v + 1) : Nat) : Int) ≤ maxPairCount l := by
  unfold maxPairCount
  apply le_foldr_max
  rw [List.mem_map]
  exact ⟨v, List.mem_filter.mpr ⟨h1, by simpa using h2⟩, rfl⟩

theorem maxPairCount_attained (l : List Int) :
    maxPairCount l = 0 ∨
      ∃ v, v ∈ l ∧ v + 1 ∈ l ∧ maxPairCount l = ((l.count v + l.count (v + 1) : Nat) : Int) := by
  rcases foldr_max_mem ((l.filter (fun v => decide (v + 1 ∈ l))).map
    (fun v => ((l.count v + l.count (v + 1) : Nat) : Int))) with h | h
  · exact Or.inl h
  · rw [List.mem_map] at h
    obtain ⟨v, hv, he⟩ := h
    rw [List.mem_filter] at hv
    exact Or.inr ⟨v, hv.1, by simpa using hv.2, he.symm⟩

theorem eq_maxPairCount {l : List Int} {r : Int} (h0 : 0 ≤ r)
    (hub : ∀ v, v ∈ l → v + 1 ∈ l → ((l.count v + l.count (v + 1) : Nat) : Int) ≤ r)
    (hatt : r = 0 ∨ ∃ v, v ∈ l ∧ v + 1 ∈ l ∧ r ≤ ((l.count v + l.count (v + 1) : Nat) : Int)) :
    r = maxPairCount l := by
  apply le_antisymm
  · rcases hatt with h | ⟨v, h1, h2, h3⟩
    · rw [h]; exact foldr_max_nonneg _
    · exact le_trans h3 (le_maxPairCount h1 h2)
  · rcases maxPairCount_attained l with h | ⟨v, h1, h2, h3⟩
    · rw [h]; exact h0
    · rw [h3]; exact hub v h1 h2

theorem maxPairCount_short {l : List Int} (h : l.length ≤ 1) : maxPairCount l = 0 := by
  match l, h with
  | [], _ => rfl
  | [a], _ => simp [maxPairCount]
  | _ :: _ :: _, h => simp at h

/-! `findLHS` on an array without overflow -/

theorem findLHS_noOverflow {qsort : (Int → Int → Int) → List Int → List Int}
    (hq : QsortContract qsort) (nums : List Int) (hno : NoOverflow nums) :
    ∃ arr, findLHS qsort nums nums.length = some (maxPairCount nums, arr) ∧
      arr.Perm nums ∧ arr.Sorted (· ≤ ·) ∧ (nums.length ≤ 1 → arr = nums) ∧
      (2 ≤ nums.length → arr = qsort compare nums) := by
  by_cases hlen : nums.length ≤ 1
  · refine ⟨nums, ?_, List.Perm.refl _, ?_, fun _ => rfl, fun h => by omega⟩
    · rw [findLHS_short qsort nums _ (by omega), maxPairCount_short hlen]
    · match nums, hlen with
      | [], _ => exact List.sorted_nil
      | [a], _ => exact List.sorted_singleton a
      | _ :: _ :: _, h => simp at h
  · have hp := hq.perm compare nums (consistent_compare hno)
    have hs := qsort_sorted hq hno
    have hno2 : NoOverflow (qsort compare nums) := noOverflow_of_perm hp hno
    have hl : (qsort compare nums).length = nums.length := hp.length_eq
    obtain ⟨r, hr1, hr2, hr3, hr4⟩ := forLoop_sorted hs hno2 _ 0 0 0 rfl (fun _ => Nat.zero_le _)
    rw [hl] at hr1
    refine ⟨qsort compare nums, ?_, hp, hs, fun h => absurd h hlen, fun _ => rfl⟩
    rw [findLHS_whole qsort nums (by omega), hr1]
    have hr : r = maxPairCount nums := by
      apply eq_maxPairCount hr2
      · intro v h1 h2
        have h1s := hp.mem_iff.mpr h1
        have h2s := hp.mem_iff.mpr h2
        have hb := below_add_two v (qsort compare nums)
        have hc := count_pos_of_mem h1s
        have := hr4 v h1s h2s (by omega)
        rw [hp.count_eq, hp.count_eq] at this
        exact this
      · rcases hr3 with h | ⟨v, h1, h2, h3⟩
        · exact Or.inl h
        · rw [hp.count_eq, hp.count_eq] at h3
          exact Or.inr ⟨v, hp.mem_iff.mp h1, hp.mem_iff.mp h2, h3⟩
    rw [hr]

/-! `findLHS` on arbitrary contents -/

theorem findLHS_total {qsort : (Int → Int → Int) → List Int → List Int}
    (hq : QsortContract qsort) (nums : List Int) (numsSize : Int)
    (hn : numsSize ≤ nums.length) :
    ∃ r arr, findLHS qsort nums numsSize = some (r, arr) ∧ 0 ≤ r ∧ r ≤ max numsSize 0 ∧
      r ≠ 1 := by
  by_cases h1 : numsSize ≤ 1
  · refine ⟨0, nums, findLHS_short qsort nums numsSize h1, le_refl _, le_max_right _ _, ?_⟩
    omega
  · have h2 : ¬ (nums.length : Int) < numsSize := by omega
    have hlen : numsSize.toNat ≤
        (qsort compare (nums.take numsSize.toNat) ++ nums.drop numsSize.toNat).length := by
      rw [List.length_append, hq.length_eq, List.length_take, List.length_drop]
      omega
    obtain ⟨r, hr1, hr2, hr3, hr4⟩ := forLoop_total _ _ hlen _ 0 0 0 rfl (fun _ => le_refl _)
      (le_refl _) (by simp) (by omega)
    refine ⟨r, qsort compare (nums.take numsSize.toNat) ++ nums.drop numsSize.toNat,
      ?_, hr2, ?_, hr4⟩
    · unfold findLHS
      simp only [h1, h2, if_false, hr1]
    · have : max ((0 : Nat) : Int) (numsSize.toNat : Int) = numsSize := by
        rw [Int.toNat_of_nonneg (by omega)]
        exact max_eq_right (by omega)
      rw [this] at hr3
      exact le_trans hr3 (le_max_left _ _)

theorem count_add_count_succ {l : List Int} {v : Int} (h : ∀ x ∈ l, x = v ∨ x = v + 1) :
    l.count v + l.count (v + 1) = l.length := by
  induction l with
  | nil => rfl
  | cons a l ih =>
    have ih2 := ih (fun x hx => h x (List.mem_cons_of_mem _ hx))
    rw [List.count_cons, List.count_cons, List.length_cons]
    rcases h a (List.mem_cons_self _ _) with ha | ha
    · subst ha
      simp
      omega
    · subst ha
      simp
      omega

theorem maxPairCount_perm {l1 l2 : List Int} (hp : l1.Perm l2) :
    maxPairCount l1 = maxPairCount l2 := by
  apply eq_maxPairCount (foldr_max_nonneg _)
  · intro v h1 h2
    rw [← hp.count_eq, ← hp.count_eq]
    exact le_maxPairCount (hp.mem_iff.mpr h1) (hp.mem_iff.mpr h2)
  · rcases maxPairCount_attained l1 with h | ⟨v, h1, h2, h3⟩
    · exact Or.inl h
    · rw [hp.count_eq, hp.count_eq] at h3
      exact Or.inr ⟨v, hp.mem_iff.mp h1, hp.mem_iff.mp h2, le_of_eq h3⟩

theorem maxPairCount_eq_zero_iff (l : List Int) :
    maxPairCount l = 0 ↔ ∀ v, v ∈ l → v + 1 ∉ l := by
  constructor
  · intro h v h1 h2
    have h3 := le_maxPairCount h1 h2
    have h4 := count_pos_of_mem h1
    rw [h] at h3
    omega
  · intro h
    rcases maxPairCount_attained l with h0 | ⟨v, h1, h2, _⟩
    · exact h0
    · exact absurd h2 (h v h1)

theorem sorted_pair_of_perm {l : List Int} (hp : l.Perm [2147483647, -2147483648])
    (ho : l.Pairwise (fun a b => compare a b ≤ 0)) : l = [2147483647, -2147483648] := by
  have hl := hp.length_eq
  match l, hl with
  | [x, y], _ =>
    have hx := hp.mem_iff (a := x)
    have hy := hp.mem_iff (a := y)
    have hn := hp.nodup_iff
    simp at hx hy hn
    rcases hx with rfl | rfl <;> rcases hy with rfl | rfl
    · simp at hn
    · rfl
    · exfalso
      simp [compare, isub, wrap32] at ho
    · simp at hn

/-! The claims -/

/-- C1. On every sequence in which no subtraction of two elements overflows, `findLHS`
returns `maxPairCount nums`, which is the maximum over all `v` with `v` and `v + 1` both in
the sequence of (occurrences of `v`) + (occurrences of `v + 1`): it bounds every such sum
and is one of them, and it is `0` when there is no such `v`. -/
theorem findLHS_eq_max_pair_count (qsort : (Int → Int → Int) → List Int → List Int)
    (hq : QsortContract qsort) (nums : List Int) (hno : NoOverflow nums) :
    ∃ r arr, findLHS qsort nums nums.length = some (r, arr) ∧ r = maxPairCount nums ∧
      (∀ v, v ∈ nums → v + 1 ∈ nums → ((nums.count v + nums.count (v + 1) : Nat) : Int) ≤ r) ∧
      ((∃ v, v ∈ nums ∧ v + 1 ∈ nums ∧ r = ((nums.count v + nums.count (v + 1) : Nat) : Int)) ∨
        ((∀ v, v ∈ nums → v + 1 ∉ nums) ∧ r = 0)) := by
  obtain ⟨arr, h, _⟩ := findLHS_noOverflow hq nums hno
  refine ⟨maxPairCount nums, arr, h, rfl, fun v h1 h2 => le_maxPairCount h1 h2, ?_⟩
  rcases maxPairCount_attained nums with h0 | h1
  · exact Or.inr ⟨(maxPairCount_eq_zero_iff nums).mp h0, h0⟩
  · exact Or.inl h1

/-- C1, test case 1 of `main`: `[1, 3, 2, 2, 5, 2, 3, 7]` gives `5`. -/
theorem findLHS_eq_max_pair_count_witness :
    QsortContract qsortRef ∧ NoOverflow [1, 3, 2, 2, 5, 2, 3, 7] ∧
      ∃ arr, findLHS qsortRef [1, 3, 2, 2, 5, 2, 3, 7] 8 = some (5, arr) := by
  refine ⟨qsortRef_contract, by decide, ?_⟩
  obtain ⟨r, arr, h, hr, _⟩ := findLHS_eq_max_pair_count qsortRef qsortRef_contract
    [1, 3, 2, 2, 5, 2, 3, 7] (by decide)
  have h5 : maxPairCount [1, 3, 2, 2, 5, 2, 3, 7] = 5 := by decide
  rw [hr, h5] at h
  exact ⟨arr, h⟩

/-- C2, evaluated at the failing input. With the comparator consistent on the two values,
every conforming `qsort` leaves `[INT_MAX, INT_MIN]` in that order, the wrapped difference
`INT_MIN - INT_MAX` is `1`, and `findLHS` returns `2`, although both elements are
representable and no two elements differ by exactly `1`. -/
theorem findLHS_int_extremes (qsort : (Int → Int → Int) → List Int → List Int)
    (hq : QsortContract qsort) :
    findLHS qsort [2147483647, -2147483648] 2 = some (2, [2147483647, -2147483648]) ∧
      (∀ a ∈ [(2147483647 : Int), -2147483648], INT_MIN ≤ a ∧ a ≤ INT_MAX) ∧
      (∀ a ∈ [(2147483647 : Int), -2147483648], ∀ b ∈ [(2147483647 : Int), -2147483648],
        a - b ≠ 1) := by
  have hc : Consistent compare [2147483647, -2147483648] := by
    unfold Consistent
    decide
  have hs := sorted_pair_of_perm (hq.perm _ _ hc) (hq.ordered _ _ hc)
  refine ⟨?_, by decide, by decide⟩
  unfold findLHS
  simp [hs, compare, isub, wrap32, forLoop, loopBody, whileLoop]

/-- C2, the failing input run with the insertion sort `qsortRef`. -/
theorem findLHS_int_extremes_witness :
    QsortContract qsortRef ∧
      findLHS qsortRef [2147483647, -2147483648] 2 = some (2, [2147483647, -2147483648]) :=
  ⟨qsortRef_contract, (findLHS_int_extremes qsortRef qsortRef_contract).1⟩

/-- C3. When `numsSize ≤ 1`, `findLHS` returns `0` and leaves the array as it is, whatever
the sorting routine and whatever the array holds: nothing is sorted and no element is
read. In particular this holds for every sequence of length `0` or `1`. -/
theorem findLHS_length_le_one (qsort : (Int → Int → Int) → List Int → List Int)
    (nums : List Int) (h : nums.length ≤ 1) :
    findLHS qsort nums nums.length = some (0, nums) ∧
      ∀ (arr : List Int) (numsSize : Int), numsSize ≤ 1 →
        findLHS qsort arr numsSize = some (0, arr) :=
  ⟨findLHS_short qsort nums _ (by omega), fun arr n hn => findLHS_short qsort arr n hn⟩

/-- C3, test case 4 of `main` and the singleton: `[]` gives `0` and `[5]` gives `0`. -/
theorem findLHS_length_le_one_witness :
    findLHS qsortRef [] 0 = some (0, []) ∧ findLHS qsortRef [5] 1 = some (0, [5]) :=
  ⟨(findLHS_length_le_one qsortRef [] (by decide)).1,
   (findLHS_length_le_one qsortRef [5] (by decide)).1⟩

/-- C4. On every sequence whose elements are all equal to one another, of any length,
`findLHS` returns `0`. -/
theorem findLHS_all_equal (qsort : (Int → Int → Int) → List Int → List Int)
    (hq : QsortContract qsort) (nums : List Int) (h : ∀ x ∈ nums, ∀ y ∈ nums, x = y) :
    ∃ arr, findLHS qsort nums nums.length = some (0, arr) := by
  have hno : NoOverflow nums := by
    intro a ha b hb
    have := h a ha b hb
    unfold INT_MIN INT_MAX
    omega
  obtain ⟨arr, hr, _⟩ := findLHS_noOverflow hq nums hno
  have h0 : maxPairCount nums = 0 := by
    rw [maxPairCount_eq_zero_iff]
    intro v h1 h2
    have := h v h1 (v + 1) h2
    omega
  rw [h0] at hr
  exact ⟨arr, hr⟩

/-- C4, test case 3 of `main`: `[1, 1, 1, 1]` gives `0`. -/
theorem findLHS_all_equal_witness :
    QsortContract qsortRef ∧ (∀ x ∈ [(1 : Int), 1, 1, 1], ∀ y ∈ [(1 : Int), 1, 1, 1], x = y) ∧
      ∃ arr, findLHS qsortRef [1, 1, 1, 1] 4 = some (0, arr) :=
  ⟨qsortRef_contract, by decide,
   findLHS_all_equal qsortRef qsortRef_contract [1, 1, 1, 1] (by decide)⟩

/-- C5. Whatever the array holds, overflowing differences included, a call with
`numsSize` at most the length of the array returns a value `r` with
`0 ≤ r ≤ max numsSize 0`; with `numsSize` the length of the sequence, `r` is at most that
length. -/
theorem findLHS_result_bounds (qsort : (Int → Int → Int) → List Int → List Int)
    (hq : QsortContract qsort) (nums : List Int) (numsSize : Int)
    (hn : numsSize ≤ nums.length) :
    ∃ r arr, findLHS qsort nums numsSize = some (r, arr) ∧ 0 ≤ r ∧ r ≤ max numsSize 0 := by
  obtain ⟨r, arr, h, h0, h1, _⟩ := findLHS_total hq nums numsSize hn
  exact ⟨r, arr, h, h0, h1⟩

/-- C5 on an array whose differences overflow. -/
theorem findLHS_result_bounds_witness :
    QsortContract qsortRef ∧
      (4 : Int) ≤ ([-2147483648, 0, 1, 2147483647] : List Int).length ∧
      ∃ r arr, findLHS qsortRef [-2147483648, 0, 1, 2147483647] 4 = some (r, arr) ∧
        0 ≤ r ∧ r ≤ max 4 0 :=
  ⟨qsortRef_contract, by decide,
   findLHS_result_bounds qsortRef qsortRef_contract [-2147483648, 0, 1, 2147483647] 4
     (by decide)⟩

/-- C6. With no subtraction of two elements overflowing, `findLHS` returns the same value
(and leaves the same array) on every two sequences that are permutations of each
other. -/
theorem findLHS_perm_invariant (qsort : (Int → Int → Int) → List Int → List Int)
    (hq : QsortContract qsort) (l1 l2 : List Int) (hp : l1.Perm l2) (hno : NoOverflow l1) :
    ∃ r arr, findLHS qsort l1 l1.length = some (r, arr) ∧
      findLHS qsort l2 l2.length = some (r, arr) := by
  obtain ⟨a1, h1, p1, s1, _⟩ := findLHS_noOverflow hq l1 hno
  obtain ⟨a2, h2, p2, s2, _⟩ := findLHS_noOverflow hq l2 (noOverflow_of_perm hp.symm hno)
  have ha : a1 = a2 := List.eq_of_perm_of_sorted (p1.trans (hp.trans p2.symm)) s1 s2
  rw [← maxPairCount_perm hp, ← ha] at h2
  exact ⟨_, _, h1, h2⟩

/-- C6 on two orderings of test case 1 of `main`. -/
theorem findLHS_perm_invariant_witness :
    QsortContract qsortRef ∧
      ([1, 3, 2, 2, 5, 2, 3, 7] : List Int).Perm [7, 3, 2, 5, 2, 2, 3, 1] ∧
      NoOverflow [1, 3, 2, 2, 5, 2, 3, 7] ∧
      ∃ r arr, findLHS qsortRef [1, 3, 2, 2, 5, 2, 3, 7] 8 = some (r, arr) ∧
        findLHS qsortRef [7, 3, 2, 5, 2, 2, 3, 1] 8 = some (r, arr) :=
  ⟨qsortRef_contract, by decide, by decide,
   findLHS_perm_invariant qsortRef qsortRef_contract [1, 3, 2, 2, 5, 2, 3, 7]
     [7, 3, 2, 5, 2, 2, 3, 1] (by decide) (by decide)⟩

/-- C7. For every array and every `numsSize` up to its length (the empty array included),
`findLHS` returns a value and reads no element outside the array; on every array the
`for` loop runs to its end, and the `while` loop, entered with `left ≤ right`, exits with
`left` still at most `right`. -/
theorem findLHS_terminates (qsort : (Int → Int → Int) → List Int → List Int)
    (hq : QsortContract qsort) (nums : List Int) (numsSize : Int)
    (hn : numsSize ≤ nums.length) :
    (∃ r arr, findLHS qsort nums numsSize = some (r, arr)) ∧
      (∀ (arr : List Int) (n : Nat), n ≤ arr.length → ∃ r, forLoop arr n 0 0 0 = some r) ∧
      (∀ (arr : List Int) (right left : Nat), right < arr.length → left ≤ right →
        ∃ left1, whileLoop arr right left = some left1 ∧ left ≤ left1 ∧ left1 ≤ right) := by
  refine ⟨?_, ?_, ?_⟩
  · obtain ⟨r, arr, h, _⟩ := findLHS_total hq nums numsSize hn
    exact ⟨r, arr, h⟩
  · intro arr n hle
    obtain ⟨r, h, _⟩ := forLoop_total arr n hle _ 0 0 0 rfl (fun _ => le_refl _) (le_refl _)
      (by simp) (by omega)
    exact ⟨r, h⟩
  · intro arr right left hr hle
    exact whileLoop_total arr right hr _ left rfl hle

/-- C7 on the empty array and on an array whose differences overflow. -/
theorem findLHS_terminates_witness :
    QsortContract qsortRef ∧ (0 : Int) ≤ ([] : List Int).length ∧
      (4 : Int) ≤ ([2147483647, -2147483648, 1, 0] : List Int).length ∧
      (∃ r arr, findLHS qsortRef [] 0 = some (r, arr)) ∧
      (∃ r arr, findLHS qsortRef [2147483647, -2147483648, 1, 0] 4 = some (r, arr)) :=
  ⟨qsortRef_contract, by decide, by decide,
   (findLHS_terminates qsortRef qsortRef_contract [] 0 (by decide)).1,
   (findLHS_terminates qsortRef qsortRef_contract [2147483647, -2147483648, 1, 0] 4
     (by decide)).1⟩

/-- C8. On every sequence whose elements are all `v` or `v + 1`, with both values
occurring, `findLHS` returns the length of the whole sequence. -/
theorem findLHS_two_values (qsort : (Int → Int → Int) → List Int → List Int)
    (hq : QsortContract qsort) (nums : List Int) (v : Int)
    (h : ∀ x ∈ nums, x = v ∨ x = v + 1) (h1 : v ∈ nums) (h2 : v + 1 ∈ nums) :
    ∃ arr, findLHS qsort nums nums.length = some ((nums.length : Int), arr) := by
  have hno : NoOverflow nums := by
    intro a ha b hb
    have := h a ha
    have := h b hb
    unfold INT_MIN INT_MAX
    omega
  obtain ⟨arr, hr, _⟩ := findLHS_noOverflow hq nums hno
  have hcount := count_add_count_succ h
  have hm : (nums.length : Int) = maxPairCount nums := by
    apply eq_maxPairCount (by omega)
    · intro w hw1 hw2
      have := h w hw1
      have := h (w + 1) hw2
      have hwv : w = v := by omega
      rw [hwv, hcount]
    · exact Or.inr ⟨v, h1, h2, by rw [hcount]⟩
  rw [← hm] at hr
  exact ⟨arr, hr⟩

/-- C8, scenario 6 of the specification: `[-1, 0, 0, -1, -1]` gives `5`. -/
theorem findLHS_two_values_witness :
    QsortContract qsortRef ∧ (∀ x ∈ [(-1 : Int), 0, 0, -1, -1], x = -1 ∨ x = -1 + 1) ∧
      (-1 : Int) ∈ [(-1 : Int), 0, 0, -1, -1] ∧ (-1 : Int) + 1 ∈ [(-1 : Int), 0, 0, -1, -1] ∧
      ∃ arr, findLHS qsortRef [-1, 0, 0, -1, -1] 5 = some (5, arr) :=
  ⟨qsortRef_contract, by decide, by decide, by decide,
   findLHS_two_values qsortRef qsortRef_contract [-1, 0, 0, -1, -1] (-1) (by decide)
     (by decide) (by decide)⟩

/-- C9. On every sequence of pairwise distinct integers with no subtraction of two
elements overflowing, `findLHS` returns `2` when some two elements differ by exactly `1`
and `0` otherwise. -/
theorem findLHS_distinct (qsort : (Int → Int → Int) → List Int → List Int)
    (hq : QsortContract qsort) (nums : List Int) (hd : nums.Nodup) (hno : NoOverflow nums) :
    ∃ r arr, findLHS qsort nums nums.length = some (r, arr) ∧
      ((∃ a ∈ nums, ∃ b ∈ nums, b - a = 1) → r = 2) ∧
      ((¬ ∃ a ∈ nums, ∃ b ∈ nums, b - a = 1) → r = 0) := by
  obtain ⟨arr, hr, _⟩ := findLHS_noOverflow hq nums hno
  have hpair : ∀ v, v ∈ nums → v + 1 ∈ nums →
      ((nums.count v + nums.count (v + 1) : Nat) : Int) = 2 := by
    intro v hv1 hv2
    rw [List.count_eq_one_of_mem hd hv1, List.count_eq_one_of_mem hd hv2]
    rfl
  refine ⟨_, arr, hr, ?_, ?_⟩
  · rintro ⟨a, ha, b, hb, hab⟩
    have hb2 : a + 1 ∈ nums := by
      have : b = a + 1 := by omega
      rw [← this]
      exact hb
    rcases maxPairCount_attained nums with h0 | ⟨v, hv1, hv2, hv3⟩
    · exact absurd hb2 ((maxPairCount_eq_zero_iff nums).mp h0 a ha)
    · rw [hv3, hpair v hv1 hv2]
  · intro hnone
    rw [maxPairCount_eq_zero_iff]
    intro v hv1 hv2
    exact hnone ⟨v, hv1, v + 1, hv2, by omega⟩

/-- C9, test case 2 of `main`: `[1, 2, 3, 4]` gives `2`. -/
theorem findLHS_distinct_witness :
    QsortContract qsortRef ∧ ([1, 2, 3, 4] : List Int).Nodup ∧ NoOverflow [1, 2, 3, 4] ∧
      ∃ arr, findLHS qsortRef [1, 2, 3, 4] 4 = some (2, arr) := by
  refine ⟨qsortRef_contract, by decide, by decide, ?_⟩
  obtain ⟨r, arr, h, h2, _⟩ := findLHS_distinct qsortRef qsortRef_contract [1, 2, 3, 4]
    (by decide) (by decide)
  have hr : r = 2 := h2 ⟨1, by decide, 2, by decide, by decide⟩
  rw [hr] at h
  exact ⟨arr, h⟩

/-- C10. With no subtraction of two elements overflowing, an input of length at least `2`
is left holding the same multiset of values in ascending order, exactly as `qsort` left it
(the scan writes to no element); an input of length at most `1` is left unchanged. -/
theorem findLHS_array_effect (qsort : (Int → Int → Int) → List Int → List Int)
    (hq : QsortContract qsort) (nums : List Int) (hno : NoOverflow nums) :
    ∃ r arr, findLHS qsort nums nums.length = some (r, arr) ∧
      (2 ≤ nums.length → arr.Perm nums ∧ arr.Sorted (· ≤ ·) ∧ arr = qsort compare nums) ∧
      (nums.length ≤ 1 → arr = nums) := by
  obtain ⟨arr, hr, hp, hs, h1, h2⟩ := findLHS_noOverflow hq nums hno
  exact ⟨_, arr, hr, fun h => ⟨hp, hs, h2 h⟩, h1⟩

/-- C10 on test case 1 of `main`: the array is left as `[1, 2, 2, 2, 3, 3, 5, 7]`. -/
theorem findLHS_array_effect_witness :
    QsortContract qsortRef ∧ NoOverflow [1, 3, 2, 2, 5, 2, 3, 7] ∧
      ∃ r, findLHS qsortRef [1, 3, 2, 2, 5, 2, 3, 7] 8 = some (r, [1, 2, 2, 2, 3, 3, 5, 7]) := by
  refine ⟨qsortRef_contract, by decide, ?_⟩
  obtain ⟨r, arr, h, h2, _⟩ := findLHS_array_effect qsortRef qsortRef_contract
    [1, 3, 2, 2, 5, 2, 3, 7] (by decide)
  have ha : arr = [1, 2, 2, 2, 3, 3, 5, 7] := by
    rw [(h2 (by decide)).2.2]
    decide
  rw [ha] at h
  exact ⟨r, h⟩

/-! Further properties of `maxPairCount` -/

theorem maxPairCount_mono {xs ys : List Int} (h : ∀ v, xs.count v ≤ ys.count v) :
    maxPairCount xs ≤ maxPairCount ys := by
  rcases maxPairCount_attained xs with h0 | ⟨v, h1, h2, h3⟩
  · rw [h0]
    exact foldr_max_nonneg _
  · have c1 := count_pos_of_mem h1
    have c2 := count_pos_of_mem h2
    have d1 := h v
    have d2 := h (v + 1)
    have m1 : v ∈ ys := List.count_pos_iff.mp (by omega)
    have m2 : v + 1 ∈ ys := List.count_pos_iff.mp (by omega)
    have hle := le_maxPairCount m1 m2
    rw [h3]
    omega

theorem add_right_injective_int (c : Int) : Function.Injective (fun a : Int => a + c) := by
  intro a b hab
  simp only at hab
  omega

theorem maxPairCount_map_add (xs : List Int) (c : Int) :
    maxPairCount (xs.map (fun a => a + c)) = maxPairCount xs := by
  have hcount : ∀ v, (xs.map (fun a => a + c)).count (v + c) = xs.count v := fun v =>
    List.count_map_of_injective xs (fun a => a + c) (add_right_injective_int c) v
  have hmem : ∀ v, v + c ∈ xs.map (fun a => a + c) ↔ v ∈ xs := by
    intro v
    rw [← List.count_pos_iff, ← List.count_pos_iff, hcount]
  refine eq_maxPairCount (r := maxPairCount (xs.map (fun a => a + c)))
    (foldr_max_nonneg _) ?_ ?_
  · intro v h1 h2
    have e : v + 1 + c = v + c + 1 := by ring
    have m1 := (hmem v).mpr h1
    have m2 := (hmem (v + 1)).mpr h2
    rw [e] at m2
    have := le_maxPairCount m1 m2
    rw [hcount v, ← e, hcount (v + 1)] at this
    exact this
  · rcases maxPairCount_attained (xs.map (fun a => a + c)) with h0 | ⟨w, h1, h2, h3⟩
    · exact Or.inl h0
    · right
      have ew : w = (w - c) + c := by ring
      have ew1 : w + 1 = (w - c + 1) + c := by ring
      refine ⟨w - c, ?_, ?_, ?_⟩
      · rw [ew] at h1
        exact (hmem _).mp h1
      · rw [ew1] at h2
        exact (hmem _).mp h2
      · rw [h3]
        have e1 := hcount (w - c)
        have e2 := hcount (w - c + 1)
        rw [← ew] at e1
        rw [← ew1] at e2
        rw [e1, e2]

/-! Wrapped and unbounded arithmetic agree when no difference overflows -/

theorem whileLoop_eq_int {s : List Int} (hno : NoOverflow s) (right : Nat) :
    ∀ (k left : Nat), s.length - left = k →
      whileLoop s right left = whileLoopInt s right left := by
  intro k
  induction k with
  | zero =>
    intro left hk
    have hl : ¬ left < s.length := by omega
    rw [whileLoop, whileLoopInt]
    simp only [hl, dite_false]
  | succ k ih =>
    intro left hk
    have hl : left < s.length := by omega
    rw [whileLoop, whileLoopInt]
    simp only [hl, dite_true]
    cases hr : s[right]? with
    | none => rfl
    | some r =>
      simp only []
      rw [isub_eq_sub hno (List.getElem?_mem hr) (List.getElem_mem hl),
        ih (left + 1) (by omega)]

theorem loopBody_eq_int {s : List Int} (hno : NoOverflow s) (right left : Nat)
    (maxLength : Int) : loopBody s right left maxLength = loopBodyInt s right left maxLength := by
  unfold loopBody loopBodyInt
  rw [whileLoop_eq_int hno right _ left rfl]
  cases whileLoopInt s right left with
  | none => rfl
  | some left1 =>
    simp only []
    cases hr : s[right]? with
    | none => rfl
    | some r =>
      cases hl : s[left1]? with
      | none => rfl
      | some l =>
        simp only []
        rw [isub_eq_sub hno (List.getElem?_mem hr) (List.getElem?_mem hl)]

theorem forLoop_eq_int {s : List Int} (hno : NoOverflow s) (numsSize : Nat) :
    ∀ (k right left : Nat) (maxLength : Int), numsSize - right = k →
      forLoop s numsSize right left maxLength = forLoopInt s numsSize right left maxLength := by
  intro k
  induction k with
  | zero =>
    intro right left maxLength hk
    have hl : ¬ right < numsSize := by omega
    rw [forLoop, forLoopInt]
    simp only [hl, if_false]
  | succ k ih =>
    intro right left maxLength hk
    have hl : right < numsSize := by omega
    rw [forLoop, forLoopInt]
    simp only [hl, if_true]
    rw [loopBody_eq_int hno]
    cases loopBodyInt s right left maxLength with
    | none => rfl
    | some p =>
      obtain ⟨left1, m1⟩ := p
      simp only []
      exact ih (right + 1) left1 m1 (by omega)

theorem consistent_compareInt (l : List Int) : Consistent compareInt l := by
  refine ⟨fun a _ => ?_, fun a _ b _ => ?_, fun a _ b _ c _ => ?_⟩
  · unfold compareInt
    omega
  · unfold compareInt
    omega
  · unfold compareInt
    omega

theorem qsort_compare_eq_int {qsort : (Int → Int → Int) → List Int → List Int}
    (hq : QsortContract qsort) {l : List Int} (h : NoOverflow l) :
    qsort compare l = qsort compareInt l := by
  have hp1 := hq.perm compare l (consistent_compare h)
  have hp2 := hq.perm compareInt l (consistent_compareInt l)
  have hs2 : (qsort compareInt l).Sorted (· ≤ ·) := by
    refine (hq.ordered compareInt l (consistent_compareInt l)).imp ?_
    intro a b hab
    unfold compareInt at hab
    omega
  exact List.eq_of_perm_of_sorted (hp1.trans hp2.symm) (qsort_sorted hq h) hs2

theorem findLHS_eq_int {qsort : (Int → Int → Int) → List Int → List Int}
    (hq : QsortContract qsort) (nums : List Int) (hno : NoOverflow nums) :
    findLHS qsort nums nums.length = findLHSInt qsort nums nums.length := by
  have hp := hq.perm compare nums (consistent_compare hno)
  have hno2 : NoOverflow (qsort compare nums) := noOverflow_of_perm hp hno
  unfold findLHS findLHSInt
  by_cases h1 : (nums.length : Int) ≤ 1
  · simp only [h1, if_true]
  · simp only [h1, if_false, lt_self_iff_false, Int.toNat_ofNat, List.take_length,
      List.drop_length, List.append_nil]
    rw [← qsort_compare_eq_int hq hno, forLoop_eq_int hno2 _ _ 0 0 0 rfl]

/-! The index pairs read by the scan -/

theorem whileLoop_of_loopBody {nums : List Int} {right left : Nat} {maxLength : Int}
    {left1 : Nat} {m1 : Int} (h : loopBody nums right left maxLength = some (left1, m1)) :
    whileLoop nums right left = some left1 := by
  unfold loopBody at h
  cases hw : whileLoop nums right left with
  | none => simp [hw] at h
  | some l =>
    simp only [hw] at h
    cases hr : nums[right]? with
    | none => simp [hr] at h
    | some r =>
      cases hl : nums[l]? with
      | none => simp [hr, hl] at h
      | some x =>
        simp only [hr, hl] at h
        split_ifs at h <;> simp at h <;> simp [h.1]

theorem whileReads_spec (nums : List Int) (right : Nat) (hr : right < nums.length) :
    ∀ (k left : Nat), right - left = k → left ≤ right →
      ∃ left1, whileLoop nums right left = some left1 ∧
        (∀ p ∈ whileReads nums right left, p.1 = right ∧ left ≤ p.2 ∧ p.2 ≤ left1) ∧
        (whileReads nums right left).Pairwise (fun p q => p.2 ≤ q.2) := by
  intro k
  induction k with
  | zero =>
    intro left hk hle
    have hlr : left = right := by omega
    subst hlr
    refine ⟨left, ?_, ?_, ?_⟩
    · rw [whileLoop]
      simp [hr, isub_self]
    · rw [whileReads]
      simp [hr, isub_self]
    · rw [whileReads]
      simp [hr, isub_self]
  | succ k ih =>
    intro left hk hle
    have hl : left < nums.length := by omega
    rw [whileLoop, whileReads]
    simp only [hl, dite_true, List.getElem?_eq_getElem hr]
    by_cases hc : isub nums[right] nums[left] > 1
    · simp only [hc, if_true]
      obtain ⟨left1, h1, h2, h3⟩ := ih (left + 1) (by omega) (by omega)
      have hge : left + 1 ≤ left1 := by
        obtain ⟨l, hl1, hl2, _⟩ := whileLoop_total nums right hr (right - (left + 1))
          (left + 1) rfl (by omega)
        rw [h1] at hl1
        injection hl1 with e
        omega
      refine ⟨left1, h1, ?_, ?_⟩
      · intro p hp
        rcases List.mem_cons.mp hp with e | e
        · rw [e]
          exact ⟨rfl, le_refl _, by simp only; omega⟩
        · have := h2 p e
          exact ⟨this.1, by omega, this.2.2⟩
      · rw [List.pairwise_cons]
        refine ⟨?_, h3⟩
        intro q hq
        have := h2 q hq
        simp only
        omega
    · simp only [hc, if_false]
      refine ⟨left, rfl, ?_, ?_⟩
      · intro p hp
        simp only [List.mem_singleton] at hp
        rw [hp]
        exact ⟨rfl, le_refl _, le_refl _⟩
      · simp

theorem forReads_spec (nums : List Int) (numsSize : Nat) (hn : numsSize ≤ nums.length) :
    ∀ (k right left : Nat) (maxLength : Int), numsSize - right = k →
      (right < numsSize → left ≤ right) →
      (∀ p ∈ forReads nums numsSize right left maxLength,
        left ≤ p.2 ∧ p.2 ≤ p.1 ∧ right ≤ p.1 ∧ p.1 < numsSize) ∧
      (forReads nums numsSize right left maxLength).Pairwise (fun p q => p.2 ≤ q.2) ∧
      (∀ j, right ≤ j → j < numsSize →
        ∃ l, (j, l) ∈ forReads nums numsSize right left maxLength) := by
  intro k
  induction k with
  | zero =>
    intro right left maxLength hk _
    have hge : ¬ right < numsSize := by omega
    rw [forReads]
    simp only [hge, if_false]
    refine ⟨fun p hp => by simp at hp, List.Pairwise.nil, fun j h1 h2 => by omega⟩
  | succ k ih =>
    intro right left maxLength hk hle
    have hlt : right < numsSize := by omega
    have hr : right < nums.length := by omega
    have hk1 : numsSize - (right + 1) = k := by omega
    obtain ⟨left1, hw, hw2, hw3⟩ := whileReads_spec nums right hr _ left rfl (hle hlt)
    obtain ⟨l2, m1, hb, _, hb2, _⟩ := loopBody_total nums right left maxLength hr (hle hlt)
    have he : l2 = left1 := by
      have := whileLoop_of_loopBody hb
      rw [hw] at this
      injection this with e
      exact e.symm
    subst he
    obtain ⟨i1, i2, i3⟩ := ih (right + 1) l2 m1 hk1 (fun _ => by omega)
    have hll : left ≤ l2 := (hw2 (right, left) (by rw [whileReads]; simp)).2.2
    rw [forReads]
    simp only [hlt, if_true, hw, hb]
    refine ⟨?_, ?_, ?_⟩
    · intro p hp
      rcases List.mem_append.mp hp with e | e
      · have := hw2 p e
        refine ⟨this.2.1, ?_, ?_, ?_⟩ <;> omega
      · rcases List.mem_cons.mp e with e | e
        · rw [e]
          simp only
          refine ⟨hll, hb2, le_refl _, hlt⟩
        · have := i1 p e
          refine ⟨?_, this.2.1, ?_, this.2.2.2⟩ <;> omega
    · rw [List.pairwise_append]
      refine ⟨hw3, ?_, ?_⟩
      · rw [List.pairwise_cons]
        exact ⟨fun q hq => (i1 q hq).1, i2⟩
      · intro p hp q hq
        have h1 := (hw2 p hp).2.2
        rcases List.mem_cons.mp hq with e | e
        · rw [e]
          exact h1
        · have := (i1 q e).1
          omega
    · intro j hj1 hj2
      by_cases hj : j = right
      · subst hj
        exact ⟨l2, List.mem_append_right _ (List.mem_cons_self _ _)⟩
      · obtain ⟨l, hl⟩ := i3 j (by omega) hj2
        exact ⟨l, List.mem_append_right _ (List.mem_cons_of_mem _ hl)⟩

/-! The states of the run -/

theorem stateAt_none {nums : List Int} {i : Nat} (h : stateAt nums i = none) :
    ∀ (d : Nat), stateAt nums (i + d) = none := by
  intro d
  induction d with
  | zero => exact h
  | succ d ih =>
    have e : i + (d + 1) = (i + d) + 1 := by omega
    rw [e, stateAt, ih]

theorem forLoop_eq_stateAt (nums : List Int) (numsSize : Nat) :
    ∀ (k right left : Nat) (maxLength : Int), numsSize - right = k → right ≤ numsSize →
      stateAt nums right = some (left, maxLength) →
      forLoop nums numsSize right left maxLength = (stateAt nums numsSize).map Prod.snd := by
  intro k
  induction k with
  | zero =>
    intro right left maxLength hk hle hst
    have he : right = numsSize := by omega
    subst he
    rw [forLoop]
    simp [hst]
  | succ k ih =>
    intro right left maxLength hk hle hst
    have hlt : right < numsSize := by omega
    have hnext : stateAt nums (right + 1) = loopBody nums right left maxLength := by
      rw [stateAt, hst]
    rw [forLoop]
    simp only [hlt, if_true]
    cases hb : loopBody nums right left maxLength with
    | none =>
      rw [hb] at hnext
      have := stateAt_none hnext (numsSize - (right + 1))
      have e : right + 1 + (numsSize - (right + 1)) = numsSize := by omega
      rw [e] at this
      simp [this]
    | some p =>
      obtain ⟨left1, m1⟩ := p
      rw [hb] at hnext
      exact ih (right + 1) left1 m1 (by omega) (by omega) hnext

theorem stateAt_sorted {s : List Int} (hs : s.Sorted (· ≤ ·)) (hno : NoOverflow s) :
    ∀ (right : Nat), right ≤ s.length →
      ∃ left maxLength, stateAt s right = some (left, maxLength) ∧
        ∀ hr : right < s.length, left ≤ below (s[right] - 1) s := by
  intro right
  induction right with
  | zero =>
    intro _
    exact ⟨0, 0, rfl, fun _ => Nat.zero_le _⟩
  | succ right ih =>
    intro hle
    have hr : right < s.length := by omega
    obtain ⟨left, m, hst, hinv⟩ := ih (by omega)
    obtain ⟨m1, hb, _⟩ := loopBody_sorted hs hno right left m hr (hinv hr)
    refine ⟨below (s[right] - 1) s, m1, ?_, ?_⟩
    · rw [stateAt, hst]
      exact hb
    · intro h
      exact below_mono (by have := getElem_succ_ge hs right h; omega) s

/-! Exhaustive search over windows -/

theorem forLoop_sorted_eq {s : List Int} (hs : s.Sorted (· ≤ ·)) (hno : NoOverflow s) :
    forLoop s s.length 0 0 0 = some (maxPairCount s) := by
  obtain ⟨r, hr1, hr2, hr3, hr4⟩ := forLoop_sorted hs hno _ 0 0 0 rfl (fun _ => Nat.zero_le _)
  have hr : r = maxPairCount s := by
    apply eq_maxPairCount hr2
    · intro v h1 h2
      have hb := below_add_two v s
      have hc := count_pos_of_mem h1
      exact hr4 v h1 h2 (by omega)
    · exact hr3
  rw [hr1, hr]

theorem le_windowSearch {s : List Int} {i j : Nat} (hij : i ≤ j) (hj : j < s.length)
    (h : s.getD j 0 - s.getD i 0 = 1) : (j : Int) - (i : Int) + 1 ≤ windowSearch s := by
  unfold windowSearch
  apply le_foldr_max
  rw [List.mem_flatMap]
  refine ⟨j, List.mem_range.mpr hj, ?_⟩
  rw [List.mem_map]
  refine ⟨i, ?_, rfl⟩
  rw [List.mem_filter]
  exact ⟨List.mem_range.mpr (by omega), by simpa using h⟩

theorem windowSearch_attained (s : List Int) :
    windowSearch s = 0 ∨
      ∃ i j, i ≤ j ∧ j < s.length ∧ s.getD j 0 - s.getD i 0 = 1 ∧
        windowSearch s = (j : Int) - (i : Int) + 1 := by
  rcases foldr_max_mem ((List.range s.length).flatMap (fun (j : Nat) =>
    ((List.range (j + 1)).filter (fun i => decide (s.getD j 0 - s.getD i 0 = 1))).map
      (fun (i : Nat) => (j : Int) - (i : Int) + 1))) with h | h
  · exact Or.inl h
  · rw [List.mem_flatMap] at h
    obtain ⟨j, hj, hm⟩ := h
    rw [List.mem_map] at hm
    obtain ⟨i, hi, he⟩ := hm
    rw [List.mem_filter] at hi
    have hi1 := List.mem_range.mp hi.1
    exact Or.inr ⟨i, j, by omega, List.mem_range.mp hj, by simpa using hi.2, he.symm⟩

theorem windowSearch_eq_maxPairCount {s : List Int} (hs : s.Sorted (· ≤ ·)) :
    windowSearch s = maxPairCount s := by
  refine eq_maxPairCount (r := windowSearch s) (foldr_max_nonneg _) ?_ ?_
  · intro v h1 h2
    have ha := below_add_two v s
    have hb := below_succ v s
    have hc := below_succ (v + 1) s
    have c1 := count_pos_of_mem h1
    have c2 := count_pos_of_mem h2
    have hlen := below_le_length (v + 1 + 1) s
    have hi : below v s < s.length := by omega
    have hj : below (v + 1 + 1) s - 1 < s.length := by omega
    have ei : s[below v s] = v := getElem_eq_of_below hs hi (le_refl _) (by omega)
    have ej : s[below (v + 1 + 1) s - 1] = v + 1 :=
      getElem_eq_of_below hs hj (by omega) (by omega)
    have hw := le_windowSearch (s := s) (i := below v s) (j := below (v + 1 + 1) s - 1)
      (by omega) hj (by
        rw [List.getD_eq_getElem s 0 hj, List.getD_eq_getElem s 0 hi, ei, ej]
        omega)
    have e2 : v + 2 = v + 1 + 1 := by ring
    rw [e2] at ha
    omega
  · rcases windowSearch_attained s with h0 | ⟨i, j, hij, hj, hd, he⟩
    · exact Or.inl h0
    · right
      have hi : i < s.length := by omega
      rw [List.getD_eq_getElem s 0 hj, List.getD_eq_getElem s 0 hi] at hd
      have ha := below_add_two s[i] s
      have h1 : ¬ i < below s[i] s := by
        rw [← getElem_lt_iff hs s[i] i hi]
        omega
      have h2 : j < below (s[i] + 2) s := (getElem_lt_iff hs _ j hj).mp (by omega)
      refine ⟨s[i], List.getElem_mem hi, ?_, ?_⟩
      · have : s[i] + 1 = s[j] := by omega
        rw [this]
        exact List.getElem_mem hj
      · rw [he]
        omega

/-! The claims, continued -/

/-- C11, evaluated at the failing input. Both arguments are representable, the first is
the smaller one, and `compare` returns `1`, a value greater than zero. -/
theorem compare_int_extremes :
    compare (-2147483648) 2147483647 = 1 ∧ (-2147483648 : Int) < 2147483647 ∧
      INT_MIN ≤ (-2147483648 : Int) ∧ (2147483647 : Int) ≤ INT_MAX := by
  decide

/-- C12. When the elements lie between `mn` and `mx` with `mx - mn` representable (in
particular `mn` the minimum and `mx` the maximum), every difference of two elements is
representable, so `compare` and the wrapped subtraction of the scan return the true
difference, and `findLHS` returns what the same code returns over unbounded integers. -/
theorem findLHS_wrap_eq_unbounded (qsort : (Int → Int → Int) → List Int → List Int)
    (hq : QsortContract qsort) (nums : List Int) (mn mx : Int)
    (hb : ∀ a ∈ nums, mn ≤ a ∧ a ≤ mx) (hspan : mx - mn ≤ INT_MAX) :
    (∀ a ∈ nums, ∀ b ∈ nums,
      INT_MIN ≤ a - b ∧ a - b ≤ INT_MAX ∧ compare a b = a - b ∧ isub a b = a - b) ∧
      ∃ r arr, findLHS qsort nums nums.length = some (r, arr) ∧
        findLHSInt qsort nums nums.length = some (r, arr) := by
  have hno : NoOverflow nums := by
    intro a ha b hb2
    have h1 := hb a ha
    have h2 := hb b hb2
    unfold INT_MAX at hspan
    unfold INT_MIN INT_MAX
    omega
  refine ⟨fun a ha b hb2 => ⟨(hno a ha b hb2).1, (hno a ha b hb2).2,
    compare_eq_sub hno ha hb2, isub_eq_sub hno ha hb2⟩, ?_⟩
  obtain ⟨arr, hr, _⟩ := findLHS_noOverflow hq nums hno
  refine ⟨_, arr, hr, ?_⟩
  rw [← findLHS_eq_int hq nums hno]
  exact hr

/-- C12 on an array spanning almost the whole positive range. -/
theorem findLHS_wrap_eq_unbounded_witness :
    QsortContract qsortRef ∧
      (∀ a ∈ [(2147483001 : Int), -5, 2147483000], (-5 : Int) ≤ a ∧ a ≤ 2147483001) ∧
      (2147483001 : Int) - (-5) ≤ INT_MAX ∧
      ∃ r arr, findLHS qsortRef [2147483001, -5, 2147483000] 3 = some (r, arr) ∧
        findLHSInt qsortRef [2147483001, -5, 2147483000] 3 = some (r, arr) :=
  ⟨qsortRef_contract, by decide, by decide,
   (findLHS_wrap_eq_unbounded qsortRef qsortRef_contract [2147483001, -5, 2147483000]
     (-5) 2147483001 (by decide) (by decide)).2⟩

/-- C13. Whatever the array holds, at every evaluation of `nums[right] - nums[left]` in a
call of `findLHS` the indices satisfy `left ≤ right < numsSize`, hence lie inside the
array, and `left` never decreases from one evaluation to the next; every pass of the `for`
loop does evaluate the expression. The same holds for the scan on any array. -/
theorem findLHS_reads_in_bounds (qsort : (Int → Int → Int) → List Int → List Int)
    (hq : QsortContract qsort) (nums : List Int) (numsSize : Int)
    (hn : numsSize ≤ nums.length) :
    (∀ p ∈ findLHSReads qsort nums numsSize,
      0 ≤ p.2 ∧ p.2 ≤ p.1 ∧ (p.1 : Int) < numsSize ∧ p.1 < nums.length) ∧
      (findLHSReads qsort nums numsSize).Pairwise (fun p q => p.2 ≤ q.2) ∧
      (2 ≤ numsSize → ∀ j : Nat, (j : Int) < numsSize →
        ∃ l, (j, l) ∈ findLHSReads qsort nums numsSize) ∧
      (∀ (arr : List Int) (n : Nat), n ≤ arr.length →
        (∀ p ∈ forReads arr n 0 0 0, p.2 ≤ p.1 ∧ p.1 < n) ∧
        (forReads arr n 0 0 0).Pairwise (fun p q => p.2 ≤ q.2)) := by
  have hgen : ∀ (arr : List Int) (n : Nat), n ≤ arr.length →
      (∀ p ∈ forReads arr n 0 0 0, p.2 ≤ p.1 ∧ p.1 < n) ∧
      (forReads arr n 0 0 0).Pairwise (fun p q => p.2 ≤ q.2) := by
    intro arr n hle
    obtain ⟨h1, h2, _⟩ := forReads_spec arr n hle _ 0 0 0 rfl (fun _ => le_refl _)
    exact ⟨fun p hp => ⟨(h1 p hp).2.1, (h1 p hp).2.2.2⟩, h2⟩
  by_cases h1 : numsSize ≤ 1
  · have he : findLHSReads qsort nums numsSize = [] := by
      unfold findLHSReads
      simp only [h1, if_true]
    rw [he]
    exact ⟨fun p hp => by simp at hp, List.Pairwise.nil, fun h2 => by omega, hgen⟩
  · have h2 : ¬ (nums.length : Int) < numsSize := by omega
    have hlen : numsSize.toNat ≤
        (qsort compare (nums.take numsSize.toNat) ++ nums.drop numsSize.toNat).length := by
      rw [List.length_append, hq.length_eq, List.length_take, List.length_drop]
      omega
    have he : findLHSReads qsort nums numsSize =
        forReads (qsort compare (nums.take numsSize.toNat) ++ nums.drop numsSize.toNat)
          numsSize.toNat 0 0 0 := by
      unfold findLHSReads
      simp only [h1, h2, if_false]
    obtain ⟨i1, i2, i3⟩ := forReads_spec _ _ hlen _ 0 0 0 rfl (fun _ => le_refl _)
    rw [he]
    refine ⟨?_, i2, ?_, hgen⟩
    · intro p hp
      have := i1 p hp
      refine ⟨Nat.zero_le _, this.2.1, ?_, ?_⟩ <;> omega
    · intro _ j hj
      exact i3 j (Nat.zero_le _) (by omega)

/-- C13 on an unsorted array whose differences overflow. -/
theorem findLHS_reads_in_bounds_witness :
    QsortContract qsortRef ∧
      (4 : Int) ≤ ([2147483647, -2147483648, 1, 0] : List Int).length ∧
      (∀ p ∈ findLHSReads qsortRef [2147483647, -2147483648, 1, 0] 4,
        0 ≤ p.2 ∧ p.2 ≤ p.1 ∧ (p.1 : Int) < 4 ∧
          p.1 < ([2147483647, -2147483648, 1, 0] : List Int).length) ∧
      (findLHSReads qsortRef [2147483647, -2147483648, 1, 0] 4).Pairwise
        (fun p q => p.2 ≤ q.2) :=
  ⟨qsortRef_contract, by decide,
   (findLHS_reads_in_bounds qsortRef qsortRef_contract [2147483647, -2147483648, 1, 0] 4
     (by decide)).1,
   (findLHS_reads_in_bounds qsortRef qsortRef_contract [2147483647, -2147483648, 1, 0] 4
     (by decide)).2.1⟩

/-- C14. On an ascending array with no overflowing difference, in the run of the scan the
`while` loop of every pass `right` exits with a value `left1` such that
`s[right] - s[left1] ≤ 1`, the element just before `left1` (if any) is more than `1` below
`s[right]`, `left1` is the smallest index with `s[right] - s[i] ≤ 1`, and the indices
`i ≤ right` inside the window `[left1, right]` are exactly those with
`s[i] ≥ s[right] - 1`. The states `stateAt` are those of the scan: its result is the
`maxLength` of the last one. -/
theorem whileLoop_exit_sorted (s : List Int) (hs : s.Sorted (· ≤ ·)) (hno : NoOverflow s)
    (right : Nat) (hr : right < s.length) :
    ∃ left maxLength left1, stateAt s right = some (left, maxLength) ∧
      whileLoop s right left = some left1 ∧ left ≤ left1 ∧ left1 ≤ right ∧
      (∀ h1 : left1 < s.length, s[right] - s[left1] ≤ 1) ∧
      (∀ i (hi : i < s.length), i + 1 = left1 → 1 < s[right] - s[i]) ∧
      (∀ i (hi : i < s.length), s[right] - s[i] ≤ 1 → left1 ≤ i) ∧
      (∀ i (hi : i < s.length), i ≤ right → (left1 ≤ i ↔ s[right] - 1 ≤ s[i])) ∧
      forLoop s s.length 0 0 0 = (stateAt s s.length).map Prod.snd := by
  obtain ⟨left, m, hst, hinv⟩ := stateAt_sorted hs hno right (by omega)
  have hw := whileLoop_sorted hs hno right hr _ left rfl (hinv hr)
  have key : ∀ i (hi : i < s.length), s[i] < s[right] - 1 ↔ i < below (s[right] - 1) s :=
    fun i hi => getElem_lt_iff hs (s[right] - 1) i hi
  have hLr : below (s[right] - 1) s ≤ right := by
    have := key right hr
    by_contra hc
    have : s[right] < s[right] - 1 := this.mpr (by omega)
    omega
  refine ⟨left, m, below (s[right] - 1) s, hst, hw, hinv hr, hLr, ?_, ?_, ?_, ?_, ?_⟩
  · intro h1
    have := key _ h1
    have hn : ¬ s[below (s[right] - 1) s] < s[right] - 1 := by
      rw [this]
      omega
    omega
  · intro i hi he
    have := (key i hi).mpr (by omega)
    omega
  · intro i hi hd
    have := key i hi
    by_contra hc
    have : s[i] < s[right] - 1 := this.mpr (by omega)
    omega
  · intro i hi _
    have := key i hi
    constructor
    · intro h
      have hn : ¬ s[i] < s[right] - 1 := by
        rw [this]
        omega
      omega
    · intro h
      by_contra hc
      have : s[i] < s[right] - 1 := this.mpr (by omega)
      omega
  · exact forLoop_eq_stateAt s s.length _ 0 0 0 rfl (Nat.zero_le _) rfl

/-- C14 on the sorted array of test case 1, at `right = 6` (value `5`): the loop is
entered with `left = 1` and exits with `left = 6`. -/
theorem whileLoop_exit_sorted_witness :
    ([1, 2, 2, 2, 3, 3, 5, 7] : List Int).Sorted (· ≤ ·) ∧
      NoOverflow [1, 2, 2, 2, 3, 3, 5, 7] ∧
      6 < ([1, 2, 2, 2, 3, 3, 5, 7] : List Int).length ∧
      ∃ left maxLength left1, stateAt [1, 2, 2, 2, 3, 3, 5, 7] 6 = some (left, maxLength) ∧
        whileLoop [1, 2, 2, 2, 3, 3, 5, 7] 6 left = some left1 ∧ left ≤ left1 ∧
        left1 ≤ 6 := by
  have hs : ([1, 2, 2, 2, 3, 3, 5, 7] : List Int).Sorted (· ≤ ·) := by decide
  refine ⟨hs, by decide, by decide, ?_⟩
  obtain ⟨left, m, left1, h1, h2, h3, h4, _⟩ :=
    whileLoop_exit_sorted [1, 2, 2, 2, 3, 3, 5, 7] hs (by decide) 6 (by decide)
  exact ⟨left, m, left1, h1, h2, h3, h4⟩

/-- C15. On an ascending array with no overflowing difference the scan returns
`windowSearch s`, the maximum of `j - i + 1` over all index pairs `i ≤ j < n` with
`s[j] - s[i] = 1`: it bounds every such window length and is one of them, and it is `0`
when there is no such pair. -/
theorem scan_eq_windowSearch (s : List Int) (hs : s.Sorted (· ≤ ·)) (hno : NoOverflow s) :
    forLoop s s.length 0 0 0 = some (windowSearch s) ∧
      (∀ i j, i ≤ j → j < s.length → s.getD j 0 - s.getD i 0 = 1 →
        (j : Int) - (i : Int) + 1 ≤ windowSearch s) ∧
      ((∃ i j, i ≤ j ∧ j < s.length ∧ s.getD j 0 - s.getD i 0 = 1 ∧
          windowSearch s = (j : Int) - (i : Int) + 1) ∨
        ((∀ i j, i ≤ j → j < s.length → s.getD j 0 - s.getD i 0 ≠ 1) ∧
          windowSearch s = 0)) := by
  refine ⟨?_, fun i j hij hj h => le_windowSearch hij hj h, ?_⟩
  · rw [forLoop_sorted_eq hs hno, windowSearch_eq_maxPairCount hs]
  · rcases windowSearch_attained s with h0 | h1
    · right
      refine ⟨?_, h0⟩
      intro i j hij hj h
      have := le_windowSearch hij hj h
      rw [h0] at this
      omega
    · exact Or.inl h1

/-- C15 on the sorted array of test case 1: the scan and the exhaustive search give
`5`. -/
theorem scan_eq_windowSearch_witness :
    ([1, 2, 2, 2, 3, 3, 5, 7] : List Int).Sorted (· ≤ ·) ∧
      NoOverflow [1, 2, 2, 2, 3, 3, 5, 7] ∧
      forLoop [1, 2, 2, 2, 3, 3, 5, 7] 8 0 0 0 = some 5 := by
  have hs : ([1, 2, 2, 2, 3, 3, 5, 7] : List Int).Sorted (· ≤ ·) := by decide
  refine ⟨hs, by decide, ?_⟩
  have h := (scan_eq_windowSearch [1, 2, 2, 2, 3, 3, 5, 7] hs (by decide)).1
  have h5 : windowSearch [1, 2, 2, 2, 3, 3, 5, 7] = 5 := by decide
  rw [h5] at h
  exact h

/-- C16. Whatever the array holds, `findLHS` never returns `1`: the returned value is `0`
or at least `2`. -/
theorem findLHS_never_one (qsort : (Int → Int → Int) → List Int → List Int)
    (hq : QsortContract qsort) (nums : List Int) (numsSize : Int)
    (hn : numsSize ≤ nums.length) :
    ∃ r arr, findLHS qsort nums numsSize = some (r, arr) ∧ r ≠ 1 ∧ (r = 0 ∨ 2 ≤ r) := by
  obtain ⟨r, arr, h, h0, _, h1⟩ := findLHS_total hq nums numsSize hn
  exact ⟨r, arr, h, h1, by omega⟩

/-- C16 on an array whose differences overflow. -/
theorem findLHS_never_one_witness :
    QsortContract qsortRef ∧
      (4 : Int) ≤ ([2147483647, -2147483648, 1, 0] : List Int).length ∧
      ∃ r arr, findLHS qsortRef [2147483647, -2147483648, 1, 0] 4 = some (r, arr) ∧
        r ≠ 1 ∧ (r = 0 ∨ 2 ≤ r) :=
  ⟨qsortRef_contract, by decide,
   findLHS_never_one qsortRef qsortRef_contract [2147483647, -2147483648, 1, 0] 4
     (by decide)⟩

/-- C17. When `ys` is `xs` with one more element `x`, at any position, and no subtraction
of two elements of `ys` overflows, `findLHS` on `ys` is at least `findLHS` on `xs`. -/
theorem findLHS_insert_mono (qsort : (Int → Int → Int) → List Int → List Int)
    (hq : QsortContract qsort) (xs ys : List Int) (x : Int) (hp : ys.Perm (x :: xs))
    (hno : NoOverflow ys) :
    ∃ r1 a1 r2 a2, findLHS qsort xs xs.length = some (r1, a1) ∧
      findLHS qsort ys ys.length = some (r2, a2) ∧ r1 ≤ r2 := by
  have hnox : NoOverflow xs := fun a ha b hb =>
    hno a (hp.mem_iff.mpr (List.mem_cons_of_mem _ ha))
      b (hp.mem_iff.mpr (List.mem_cons_of_mem _ hb))
  obtain ⟨a1, h1, _⟩ := findLHS_noOverflow hq xs hnox
  obtain ⟨a2, h2, _⟩ := findLHS_noOverflow hq ys hno
  refine ⟨_, a1, _, a2, h1, h2, maxPairCount_mono ?_⟩
  intro v
  rw [hp.count_eq]
  exact List.count_le_count_cons v x xs

/-- C17 on `[1, 2, 2, 4]` with `3` added: the result grows from `3` to `3` or more. -/
theorem findLHS_insert_mono_witness :
    QsortContract qsortRef ∧ ([1, 3, 2, 2, 4] : List Int).Perm (3 :: [1, 2, 2, 4]) ∧
      NoOverflow [1, 3, 2, 2, 4] ∧
      ∃ r1 a1 r2 a2, findLHS qsortRef [1, 2, 2, 4] 4 = some (r1, a1) ∧
        findLHS qsortRef [1, 3, 2, 2, 4] 5 = some (r2, a2) ∧ r1 ≤ r2 :=
  ⟨qsortRef_contract, by decide, by decide,
   findLHS_insert_mono qsortRef qsortRef_contract [1, 2, 2, 4] [1, 3, 2, 2, 4] 3
     (by decide) (by decide)⟩

/-- C18. When no subtraction of two elements of `xs` overflows, `findLHS` returns the
same value on `xs` and on `xs` with `c` added to every element. (That the shifted values
stay representable is what makes the shifted sequence an array of `int`; the equality
itself does not need it.) -/
theorem findLHS_translate (qsort : (Int → Int → Int) → List Int → List Int)
    (hq : QsortContract qsort) (xs : List Int) (c : Int) (hno : NoOverflow xs) :
    ∃ r a1 a2, findLHS qsort xs xs.length = some (r, a1) ∧
      findLHS qsort (xs.map (fun a => a + c)) (xs.map (fun a => a + c)).length =
        some (r, a2) := by
  have hno2 : NoOverflow (xs.map (fun a => a + c)) := by
    intro a ha b hb
    rw [List.mem_map] at ha hb
    obtain ⟨a0, ha0, rfl⟩ := ha
    obtain ⟨b0, hb0, rfl⟩ := hb
    have := hno a0 ha0 b0 hb0
    have e : a0 + c - (b0 + c) = a0 - b0 := by ring
    rw [e]
    exact this
  obtain ⟨a1, h1, _⟩ := findLHS_noOverflow hq xs hno
  obtain ⟨a2, h2, _⟩ := findLHS_noOverflow hq _ hno2
  rw [maxPairCount_map_add] at h2
  exact ⟨_, a1, a2, h1, h2⟩

/-- C18 on test case 1 of `main` shifted by `-100`. -/
theorem findLHS_translate_witness :
    QsortContract qsortRef ∧ NoOverflow [1, 3, 2, 2, 5, 2, 3, 7] ∧
      ∃ r a1 a2, findLHS qsortRef [1, 3, 2, 2, 5, 2, 3, 7] 8 = some (r, a1) ∧
        findLHS qsortRef [-99, -97, -98, -98, -95, -98, -97, -93] 8 = some (r, a2) := by
  refine ⟨qsortRef_contract, by decide, ?_⟩
  have h := findLHS_translate qsortRef qsortRef_contract [1, 3, 2, 2, 5, 2, 3, 7] (-100)
    (by decide)
  have e : ([1, 3, 2, 2, 5, 2, 3, 7] : List Int).map (fun a => a + (-100)) =
      [-99, -97, -98, -98, -95, -98, -97, -93] := by decide
  rw [e] at h
  exact h

end FindLHS
